import Mathlib

/-!
# Verification of the bucketed histogram (`metrics-util/src/histogram.rs`)

Shallow embedding of the `Histogram` type and its operations.  The Rust
counters are `u64`, so every counter update is arithmetic modulo `2 ^ 64`
(`u64add`).  Vectors become `List Nat`; the indexed-write loops of the source
become lockstep recursions over the lists, and each loop that performs an
indexed write also gets a `Checked` variant returning `Option` whose `none`
models the out-of-bounds panic branch of Rust indexing.
-/

/-- Modulus of the 64-bit unsigned counters of the histogram. -/
def U64 : Nat := 2 ^ 64

/-- Wrapping `u64` addition: `a + b` reduced modulo `2 ^ 64`, the semantics of
`+=` on the `u64` fields of the source. -/
def u64add (a b : Nat) : Nat := (a + b) % U64

/-- The `Histogram` struct: total sample count, the configured bucket bounds,
the per-bucket counters and the total sample sum (all `u64` in the source). -/
structure Histogram where
  count : Nat
  bounds : List Nat
  buckets : List Nat
  sum : Nat
  deriving Repr, DecidableEq

/-- The constructor loop `for _ in bounds { buckets.push(0) }`: one zero
counter per configured bound. -/
def zeroBuckets : List Nat → List Nat
  | [] => []
  | _ :: bs => 0 :: zeroBuckets bs

/-- Embeds `Histogram::new`: `None` when `bounds.len() == 0`, otherwise a histogram
with the bounds stored as given and all counters zero. -/
def Histogram.new (bounds : List Nat) : Option Histogram :=
  if bounds.length = 0 then none
  else some { count := 0, bounds := bounds, buckets := zeroBuckets bounds, sum := 0 }

/-- Embeds `Histogram::sum(&self)`: the accessor returns the running sum and, taking
`&self`, passes the state through unchanged. -/
def Histogram.sumCall (h : Histogram) : Nat × Histogram := (h.sum, h)

/-- Embeds `Histogram::count(&self)`: the accessor returns the running count and
passes the state through unchanged. -/
def Histogram.countCall (h : Histogram) : Nat × Histogram := (h.count, h)

/-- Embeds `Histogram::buckets(&self)`: zips cloned bounds with cloned counters into
a fresh list of pairs; the state is passed through unchanged. -/
def Histogram.bucketsCall (h : Histogram) : List (Nat × Nat) × Histogram :=
  (h.bounds.zip h.buckets, h)

/-- Bucket-update loop of `record`: walk `bounds` with the running index into
`buckets`, incrementing (mod `2 ^ 64`) every counter whose bound is `≥ sample`.
Positions of `buckets` beyond `bounds.length` are never touched by the loop. -/
def recordBuckets (sample : Nat) : List Nat → List Nat → List Nat
  | [], bks => bks
  | _ :: _, [] => []
  | bound :: bs, c :: cs =>
    (if sample ≤ bound then u64add c 1 else c) :: recordBuckets sample bs cs

/-- Embeds `Histogram::record`: add the sample to the sum, bump the count, and bump
every bucket whose bound is `≥ sample`. -/
def Histogram.record (h : Histogram) (sample : Nat) : Histogram :=
  { count := u64add h.count 1
    bounds := h.bounds
    buckets := recordBuckets sample h.bounds h.buckets
    sum := u64add h.sum sample }

/-- The `break`ing inner loop of `record_many`: index of the FIRST bound with
`sample ≤ bound`, if any. -/
def firstMatch (sample : Nat) : List Nat → Option Nat
  | [] => none
  | bound :: bs =>
    if sample ≤ bound then some 0 else (firstMatch sample bs).map (fun j => j + 1)

/-- Embeds `bucketed[i] += 1` (mod `2 ^ 64`); out-of-range indices leave the list
unchanged (the panic of that case is modelled by `bumpIdxChecked`). -/
def bumpIdx : List Nat → Nat → List Nat
  | [], _ => []
  | c :: cs, 0 => u64add c 1 :: cs
  | c :: cs, i + 1 => c :: bumpIdx cs i

/-- One classification step of `record_many`: bump the temporary slot of the
first bound matching the sample, when one exists. -/
def classifyStep (bounds : List Nat) (bucketed : List Nat) (sample : Nat) : List Nat :=
  match firstMatch sample bounds with
  | none => bucketed
  | some i => bumpIdx bucketed i

/-- Body of the `for sample in samples` loop of `record_many`: accumulate the
local sum, the local count, and the temporary exact-bucket array. -/
def rmLoop (bounds : List Nat) (acc : Nat × Nat × List Nat) (sample : Nat) :
    Nat × Nat × List Nat :=
  (u64add acc.1 sample, u64add acc.2.1 1, classifyStep bounds acc.2.2 sample)

/-- The cumulative-propagation loop of `record_many`
(`bucketed[idx + 1] += bucketed[idx]` for each `idx` below `len - 1`, guarded
by `len >= 2`), carried by the value the loop just wrote at index `idx`. -/
def propagateFrom (c : Nat) : List Nat → List Nat
  | [] => [c]
  | c2 :: rest => c :: propagateFrom (u64add c2 c) rest

/-- The cumulative-propagation loop of `record_many`: a list of length `< 2`
is left unchanged, otherwise each entry receives the (wrapped) sum of all
entries up to it. -/
def propagate : List Nat → List Nat
  | [] => []
  | c :: rest => propagateFrom c rest

/-- The merge loop of `record_many`: `self.buckets[idx] += local` for each
entry of the temporary array. -/
def mergeBuckets : List Nat → List Nat → List Nat
  | bks, [] => bks
  | [], _ :: _ => []
  | c :: cs, l :: ls => u64add c l :: mergeBuckets cs ls

/-- Embeds `Histogram::record_many`: classify every sample into its first matching
bucket while accumulating a local sum and count, propagate the temporary
counts forward to make them cumulative, then merge everything into the
histogram. -/
def Histogram.record_many (h : Histogram) (samples : List Nat) : Histogram :=
  let acc := samples.foldl (rmLoop h.bounds) (0, 0, List.replicate h.buckets.length 0)
  { count := u64add h.count acc.2.1
    bounds := h.bounds
    buckets := mergeBuckets h.buckets (propagate acc.2.2)
    sum := u64add h.sum acc.1 }

/-- Number of samples `≤ bound` in a sample list (the per-bucket increment a
sequence of `record` calls produces). -/
def countLE (samples : List Nat) (bound : Nat) : Nat :=
  samples.countP (fun s => decide (s ≤ bound))

/-- Number of samples whose first matching bound has index `≤ i` (the
cumulative increment `record_many` produces at slot `i`). -/
def cumCnt (bounds : List Nat) (i : Nat) (samples : List Nat) : Nat :=
  samples.countP (fun s =>
    match firstMatch s bounds with
    | none => false
    | some j => decide (j ≤ i))

/-- Ascending (non-decreasing) bound order, the precondition the structure
trusts the caller to establish. -/
def Ascending (l : List Nat) : Prop := List.Pairwise (fun a b => a ≤ b) l

instance (l : List Nat) : Decidable (Ascending l) :=
  inferInstanceAs (Decidable (List.Pairwise _ l))

/-- States realisable by the Rust program: the parallel vectors have equal
length (established by `new`, preserved by recording) and every `u64` field
is below `2 ^ 64`. -/
def Histogram.WF (h : Histogram) : Prop :=
  h.bounds.length = h.buckets.length ∧ h.count < U64 ∧ h.sum < U64 ∧
    ∀ c ∈ h.buckets, c < U64

instance (h : Histogram) : Decidable h.WF :=
  inferInstanceAs (Decidable (_ ∧ _ ∧ _ ∧ _))

/-! ## Checked (panic-aware) variants of the indexed-write loops -/

/-- Embeds the loop of `record` with the panic of `self.buckets[idx] += 1` made explicit:
`none` exactly when the loop reaches a matching bound whose index is outside
`buckets`. -/
def recordBucketsChecked (sample : Nat) : List Nat → List Nat → Option (List Nat)
  | [], bks => some bks
  | bound :: bs, [] =>
    if sample ≤ bound then none else recordBucketsChecked sample bs []
  | bound :: bs, c :: cs =>
    (recordBucketsChecked sample bs cs).map
      (fun t => (if sample ≤ bound then u64add c 1 else c) :: t)

/-- Embeds `Histogram::record` with the indexing panic made explicit. -/
def Histogram.recordChecked (h : Histogram) (sample : Nat) : Option Histogram :=
  (recordBucketsChecked sample h.bounds h.buckets).map fun bks =>
    { count := u64add h.count 1, bounds := h.bounds, buckets := bks
      sum := u64add h.sum sample }

/-- Embeds `bucketed[i] += 1` with the out-of-range panic made explicit. -/
def bumpIdxChecked (l : List Nat) (i : Nat) : Option (List Nat) :=
  if i < l.length then some (bumpIdx l i) else none

/-- Classification step with the panic of `bucketed[idx] += 1` made
explicit. -/
def classifyStepChecked (bounds : List Nat) (bucketed : List Nat) (sample : Nat) :
    Option (List Nat) :=
  match firstMatch sample bounds with
  | none => some bucketed
  | some i => bumpIdxChecked bucketed i

/-- Loop body of `record_many` with the classification panic made explicit. -/
def rmLoopChecked (bounds : List Nat) (acc : Nat × Nat × List Nat) (sample : Nat) :
    Option (Nat × Nat × List Nat) :=
  (classifyStepChecked bounds acc.2.2 sample).map
    (fun b => (u64add acc.1 sample, u64add acc.2.1 1, b))

/-- Merge loop with the panic of `self.buckets[idx] += local` made explicit:
`none` when the temporary array is longer than the bucket vector. -/
def mergeBucketsChecked : List Nat → List Nat → Option (List Nat)
  | bks, [] => some bks
  | [], _ :: _ => none
  | c :: cs, l :: ls => (mergeBucketsChecked cs ls).map (fun t => u64add c l :: t)

/-- Embeds `Histogram::record_many` with every indexing panic made explicit. -/
def Histogram.recordManyChecked (h : Histogram) (samples : List Nat) : Option Histogram := do
  let acc ← samples.foldlM (rmLoopChecked h.bounds) (0, 0, List.replicate h.buckets.length 0)
  let merged ← mergeBucketsChecked h.buckets (propagate acc.2.2)
  pure { count := u64add h.count acc.2.1, bounds := h.bounds, buckets := merged
         sum := u64add h.sum acc.1 }

/-! ## Operation sequences -/

/-- One recording operation: a single `record` call or one `record_many`
call. -/
inductive Op where
  | single : Nat → Op
  | many : List Nat → Op
  deriving Repr, DecidableEq

/-- Apply one recording operation. -/
def applyOp (h : Histogram) : Op → Histogram
  | Op.single s => h.record s
  | Op.many ss => h.record_many ss

/-- Apply a sequence of recording operations in order. -/
def applyOps (h : Histogram) (ops : List Op) : Histogram := ops.foldl applyOp h

/-- The samples an operation records. -/
def opSamples : Op → List Nat
  | Op.single s => [s]
  | Op.many ss => ss

/-- All samples recorded by a sequence of operations, in order. -/
def allSamples (ops : List Op) : List Nat := (ops.map opSamples).flatten

/-- The state a histogram reaches from fresh construction on `bounds` after
recording exactly the samples `ss` (under ascending bounds): each counter is
the corresponding exact count reduced modulo `2 ^ 64`. -/
def mkState (bounds : List Nat) (ss : List Nat) : Histogram :=
  { count := ss.length % U64
    bounds := bounds
    buckets := bounds.map (fun b => countLE ss b % U64)
    sum := ss.sum % U64 }

/-! ## Basic facts -/

theorem U64_pos : 0 < U64 := by
  simp [U64]

theorem u64add_lt (a b : Nat) : u64add a b < U64 :=
  Nat.mod_lt _ U64_pos

theorem zeroBuckets_eq (l : List Nat) : zeroBuckets l = List.replicate l.length 0 := by
  induction l with
  | nil => rfl
  | cons x xs ih => simp [zeroBuckets, ih, List.replicate]

/-- Closed form of the constructor: `none` exactly on the empty bound list,
otherwise the zero-initialised histogram over the given bounds. -/
theorem new_spec (bounds : List Nat) :
    Histogram.new bounds =
      if bounds = [] then none
      else some { count := 0, bounds := bounds,
                  buckets := List.replicate bounds.length 0, sum := 0 } := by
  cases bounds with
  | nil => rfl
  | cons b bs => simp [Histogram.new, zeroBuckets_eq]

theorem U64_eq : U64 = 18446744073709551616 := by
  norm_num [U64]

theorem getD_mem : ∀ (l : List Nat) (i : Nat), i < l.length → l.getD i 0 ∈ l := by
  intro l
  induction l with
  | nil => intro i hi; simp at hi
  | cons c cs ih =>
    intro i hi
    cases i with
    | zero => simp
    | succ i =>
      simp only [List.getD_cons_succ]
      exact List.mem_cons_of_mem _ (ih i (by simpa using hi))

theorem getD_ext : ∀ (l₁ l₂ : List Nat), l₁.length = l₂.length →
    (∀ i, i < l₁.length → l₁.getD i 0 = l₂.getD i 0) → l₁ = l₂ := by
  intro l₁
  induction l₁ with
  | nil =>
    intro l₂ hl _
    cases l₂ with
    | nil => rfl
    | cons c cs => simp at hl
  | cons c cs ih =>
    intro l₂ hl hp
    cases l₂ with
    | nil => simp at hl
    | cons d ds =>
      have h0 := hp 0 (by simp)
      simp only [List.getD_cons_zero] at h0
      have ht : cs = ds := by
        refine ih ds (by simpa using hl) ?_
        intro i hi
        have := hp (i + 1) (by simpa using Nat.succ_lt_succ hi)
        simpa using this
      rw [h0, ht]

theorem length_bumpIdx : ∀ (l : List Nat) (i : Nat), (bumpIdx l i).length = l.length := by
  intro l
  induction l with
  | nil => intro i; rfl
  | cons c cs ih =>
    intro i
    cases i with
    | zero => rfl
    | succ i => simp [bumpIdx, ih]

theorem getD_bumpIdx_self : ∀ (l : List Nat) (i : Nat), i < l.length →
    (bumpIdx l i).getD i 0 = u64add (l.getD i 0) 1 := by
  intro l
  induction l with
  | nil => intro i hi; simp at hi
  | cons c cs ih =>
    intro i hi
    cases i with
    | zero => rfl
    | succ i => simpa [bumpIdx] using ih i (by simpa using hi)

theorem getD_bumpIdx_ne : ∀ (l : List Nat) (i j : Nat), j ≠ i →
    (bumpIdx l i).getD j 0 = l.getD j 0 := by
  intro l
  induction l with
  | nil => intro i j _; rfl
  | cons c cs ih =>
    intro i j hne
    cases i with
    | zero =>
      cases j with
      | zero => exact absurd rfl hne
      | succ j => rfl
    | succ i =>
      cases j with
      | zero => rfl
      | succ j => simpa [bumpIdx] using ih i j (by omega)

theorem mem_bumpIdx_lt : ∀ (l : List Nat) (i : Nat), (∀ c ∈ l, c < U64) →
    ∀ c ∈ bumpIdx l i, c < U64 := by
  intro l
  induction l with
  | nil => intro i _ c hc; simp [bumpIdx] at hc
  | cons a as ih =>
    intro i hl c hc
    cases i with
    | zero =>
      simp only [bumpIdx, List.mem_cons] at hc
      rcases hc with rfl | hc
      · exact u64add_lt _ _
      · exact hl c (List.mem_cons_of_mem _ hc)
    | succ i =>
      simp only [bumpIdx, List.mem_cons] at hc
      rcases hc with rfl | hc
      · exact hl c (List.mem_cons_self _ _)
      · exact ih i (fun x hx => hl x (List.mem_cons_of_mem _ hx)) c hc

theorem bumpIdx_take_eq : ∀ (l : List Nat) (i k : Nat), k ≤ i →
    (bumpIdx l i).take k = l.take k := by
  intro l
  induction l with
  | nil => intro i k _; rfl
  | cons c cs ih =>
    intro i k hk
    cases k with
    | zero => rfl
    | succ k =>
      cases i with
      | zero => omega
      | succ i => simp [bumpIdx, ih i k (by omega)]

theorem bumpIdx_take_sum : ∀ (l : List Nat) (i k : Nat), i < l.length → i < k →
    ((bumpIdx l i).take k).sum % U64 = ((l.take k).sum + 1) % U64 := by
  intro l
  induction l with
  | nil => intro i k hi _; simp at hi
  | cons c cs ih =>
    intro i k hi hk
    cases i with
    | zero =>
      cases k with
      | zero => omega
      | succ k =>
        simp only [bumpIdx, List.take_succ_cons, List.sum_cons, u64add, U64_eq]
        omega
    | succ i =>
      cases k with
      | zero => omega
      | succ k =>
        have hrec := ih i k (by simpa using hi) (by omega)
        simp only [bumpIdx, List.take_succ_cons, List.sum_cons]
        rw [U64_eq] at hrec ⊢
        omega

theorem length_recordBuckets : ∀ (bounds bks : List Nat) (s : Nat),
    bounds.length = bks.length → (recordBuckets s bounds bks).length = bks.length := by
  intro bounds
  induction bounds with
  | nil => intro bks s _; rfl
  | cons b bs ih =>
    intro bks s hl
    cases bks with
    | nil => simp at hl
    | cons c cs => simp [recordBuckets, ih cs s (by simpa using hl)]

theorem getD_recordBuckets : ∀ (bounds bks : List Nat) (s i : Nat),
    bounds.length = bks.length → i < bks.length →
    (recordBuckets s bounds bks).getD i 0 =
      if s ≤ bounds.getD i 0 then u64add (bks.getD i 0) 1 else bks.getD i 0 := by
  intro bounds
  induction bounds with
  | nil => intro bks s i hl hi; rw [← hl] at hi; simp at hi
  | cons b bs ih =>
    intro bks s i hl hi
    cases bks with
    | nil => simp at hl
    | cons c cs =>
      cases i with
      | zero => simp [recordBuckets]
      | succ i =>
        simpa [recordBuckets] using ih cs s i (by simpa using hl) (by simpa using hi)

theorem mem_recordBuckets_lt : ∀ (bounds bks : List Nat) (s : Nat),
    (∀ c ∈ bks, c < U64) → ∀ c ∈ recordBuckets s bounds bks, c < U64 := by
  intro bounds
  induction bounds with
  | nil => intro bks s hb c hc; exact hb c hc
  | cons b bs ih =>
    intro bks s hb c hc
    cases bks with
    | nil => simp [recordBuckets] at hc
    | cons a as =>
      simp only [recordBuckets, List.mem_cons] at hc
      rcases hc with rfl | hc
      · by_cases hsb : s ≤ b
        · simpa [hsb] using u64add_lt a 1
        · simpa [hsb] using hb a (List.mem_cons_self _ _)
      · exact ih as s (fun x hx => hb x (List.mem_cons_of_mem _ hx)) c hc

theorem length_mergeBuckets : ∀ (a b : List Nat), a.length = b.length →
    (mergeBuckets a b).length = a.length := by
  intro a
  induction a with
  | nil =>
    intro b hl
    cases b with
    | nil => rfl
    | cons x xs => simp at hl
  | cons c cs ih =>
    intro b hl
    cases b with
    | nil => rfl
    | cons x xs => simp [mergeBuckets, ih xs (by simpa using hl)]

theorem getD_mergeBuckets : ∀ (a b : List Nat) (i : Nat), a.length = b.length →
    i < a.length →
    (mergeBuckets a b).getD i 0 = u64add (a.getD i 0) (b.getD i 0) := by
  intro a
  induction a with
  | nil => intro b i _ hi; simp at hi
  | cons c cs ih =>
    intro b i hl hi
    cases b with
    | nil => simp at hl
    | cons x xs =>
      cases i with
      | zero => rfl
      | succ i =>
        simpa [mergeBuckets] using ih xs i (by simpa using hl) (by simpa using hi)

theorem length_propagateFrom : ∀ (l : List Nat) (c : Nat),
    (propagateFrom c l).length = l.length + 1 := by
  intro l
  induction l with
  | nil => intro c; rfl
  | cons c2 rest ih => intro c; simp [propagateFrom, ih]

theorem length_propagate : ∀ (l : List Nat), (propagate l).length = l.length := by
  intro l
  cases l with
  | nil => rfl
  | cons c rest => simpa [propagate] using length_propagateFrom rest c

theorem getD_propagateFrom : ∀ (i : Nat) (l : List Nat) (c : Nat), c < U64 →
    i < l.length + 1 →
    (propagateFrom c l).getD i 0 = ((c :: l).take (i + 1)).sum % U64 := by
  intro i
  induction i with
  | zero =>
    intro l c hc _
    cases l with
    | nil => simpa [propagateFrom] using (Nat.mod_eq_of_lt hc).symm
    | cons c2 rest => simpa [propagateFrom] using (Nat.mod_eq_of_lt hc).symm
  | succ i ih =>
    intro l c hc hi
    cases l with
    | nil => simp at hi
    | cons c2 rest =>
      have hstep : (propagateFrom c (c2 :: rest)).getD (i + 1) 0 =
          (propagateFrom (u64add c2 c) rest).getD i 0 := by
        simp [propagateFrom]
      rw [hstep, ih rest (u64add c2 c) (u64add_lt _ _) (by simpa using hi)]
      simp only [List.take_succ_cons, List.sum_cons, u64add, U64_eq]
      omega

theorem getD_propagate : ∀ (i : Nat) (l : List Nat), (∀ c ∈ l, c < U64) →
    i < l.length → (propagate l).getD i 0 = (l.take (i + 1)).sum % U64 := by
  intro i l hl hi
  cases l with
  | nil => simp at hi
  | cons c rest =>
    show (propagateFrom c rest).getD i 0 = _
    exact getD_propagateFrom i rest c (hl c (List.mem_cons_self _ _)) (by simpa using hi)

theorem firstMatch_none_iff : ∀ (s : Nat) (l : List Nat),
    firstMatch s l = none ↔ ∀ b ∈ l, ¬ (s ≤ b) := by
  intro s l
  induction l with
  | nil => simp [firstMatch]
  | cons b bs ih =>
    by_cases hsb : s ≤ b
    · simp only [firstMatch, hsb, if_pos]
      constructor
      · intro h; simp at h
      · intro h; exact absurd hsb (h b (List.mem_cons_self _ _))
    · simp [firstMatch, hsb, ih]
      intro _
      omega

theorem firstMatch_some : ∀ (s : Nat) (l : List Nat) (j : Nat),
    firstMatch s l = some j →
    j < l.length ∧ s ≤ l.getD j 0 ∧ ∀ k, k < j → ¬ (s ≤ l.getD k 0) := by
  intro s l
  induction l with
  | nil => intro j hj; simp [firstMatch] at hj
  | cons b bs ih =>
    intro j hj
    by_cases hsb : s ≤ b
    · simp only [firstMatch, hsb, if_pos, Option.some.injEq] at hj
      subst hj
      exact ⟨by simp, by simpa using hsb, fun k hk => absurd hk (by omega)⟩
    · rw [show firstMatch s (b :: bs) = (firstMatch s bs).map (fun j => j + 1) by
        simp [firstMatch, hsb]] at hj
      cases hm : firstMatch s bs with
      | none => rw [hm] at hj; simp at hj
      | some j' =>
        rw [hm] at hj
        simp only [Option.map_some', Option.some.injEq] at hj
        subst hj
        obtain ⟨h1, h2, h3⟩ := ih j' hm
        refine ⟨by simpa using h1, by simpa using h2, ?_⟩
        intro k hk
        cases k with
        | zero => simpa using hsb
        | succ k => simpa using h3 k (by omega)

theorem firstMatch_le_of_le (s : Nat) (l : List Nat) (i : Nat)
    (hi : i < l.length) (hs : s ≤ l.getD i 0) :
    ∃ j, firstMatch s l = some j ∧ j ≤ i := by
  cases hm : firstMatch s l with
  | none =>
    exact absurd hs ((firstMatch_none_iff s l).mp hm _ (getD_mem l i hi))
  | some j =>
    obtain ⟨_, _, h3⟩ := firstMatch_some s l j hm
    refine ⟨j, rfl, ?_⟩
    by_contra hij
    exact h3 i (by omega) hs

theorem length_classifyStep (bounds b : List Nat) (s : Nat) :
    (classifyStep bounds b s).length = b.length := by
  unfold classifyStep
  cases firstMatch s bounds with
  | none => rfl
  | some i => exact length_bumpIdx b i

theorem mem_classifyStep_lt (bounds b : List Nat) (s : Nat)
    (hb : ∀ c ∈ b, c < U64) : ∀ c ∈ classifyStep bounds b s, c < U64 := by
  unfold classifyStep
  cases firstMatch s bounds with
  | none => exact hb
  | some i => exact mem_bumpIdx_lt b i hb

theorem length_classFold (bounds : List Nat) : ∀ (ss b : List Nat),
    (ss.foldl (classifyStep bounds) b).length = b.length := by
  intro ss
  induction ss with
  | nil => intro b; rfl
  | cons s ss ih =>
    intro b
    simp only [List.foldl_cons]
    rw [ih, length_classifyStep]

theorem mem_classFold_lt (bounds : List Nat) : ∀ (ss b : List Nat),
    (∀ c ∈ b, c < U64) → ∀ c ∈ ss.foldl (classifyStep bounds) b, c < U64 := by
  intro ss
  induction ss with
  | nil => intro b hb; exact hb
  | cons s ss ih =>
    intro b hb
    simp only [List.foldl_cons]
    exact ih _ (mem_classifyStep_lt bounds b s hb)

theorem cumCnt_cons (bounds : List Nat) (i s : Nat) (ss : List Nat) :
    cumCnt bounds i (s :: ss) =
      cumCnt bounds i ss +
        (match firstMatch s bounds with
          | none => 0
          | some j => if j ≤ i then 1 else 0) := by
  unfold cumCnt
  rw [List.countP_cons]
  cases hm : firstMatch s bounds with
  | none => simp [hm]
  | some j =>
    by_cases hji : j ≤ i
    · simp [hm, hji]
    · simp [hm, hji]

theorem classFold_take_sum (bounds : List Nat) : ∀ (ss b : List Nat) (i : Nat),
    bounds.length ≤ b.length →
    ((ss.foldl (classifyStep bounds) b).take (i + 1)).sum % U64 =
      ((b.take (i + 1)).sum + cumCnt bounds i ss) % U64 := by
  intro ss
  induction ss with
  | nil =>
    intro b i _
    simp [cumCnt]
  | cons s ss ih =>
    intro b i hlen
    simp only [List.foldl_cons]
    have hlen' : bounds.length ≤ (classifyStep bounds b s).length := by
      rw [length_classifyStep]; exact hlen
    have hrec := ih (classifyStep bounds b s) i hlen'
    rw [cumCnt_cons]
    cases hm : firstMatch s bounds with
    | none =>
      simp only [classifyStep, hm] at hrec ⊢
      rw [hrec]
      simp
    | some j =>
      have hj : j < bounds.length := (firstMatch_some s bounds j hm).1
      by_cases hji : j ≤ i
      · have hsum := bumpIdx_take_sum b j (i + 1) (by omega) (by omega)
        simp only [classifyStep, hm] at hrec ⊢
        rw [hrec]
        simp only [hji, if_pos]
        rw [U64_eq] at hsum ⊢
        omega
      · have heq := bumpIdx_take_eq b j (i + 1) (by omega)
        simp only [classifyStep, hm] at hrec ⊢
        rw [hrec, heq]
        simp [hji]

theorem foldl_u64add_sum : ∀ (ss : List Nat) (x : Nat), x < U64 →
    ss.foldl (fun a s => u64add a s) x = (x + ss.sum) % U64 := by
  intro ss
  induction ss with
  | nil => intro x hx; simpa using (Nat.mod_eq_of_lt hx).symm
  | cons s ss ih =>
    intro x hx
    simp only [List.foldl_cons, List.sum_cons]
    rw [ih (u64add x s) (u64add_lt x s)]
    simp only [u64add, U64_eq]
    omega

theorem foldl_u64add_count : ∀ (ss : List Nat) (x : Nat), x < U64 →
    ss.foldl (fun a _ => u64add a 1) x = (x + ss.length) % U64 := by
  intro ss
  induction ss with
  | nil => intro x hx; simpa using (Nat.mod_eq_of_lt hx).symm
  | cons s ss ih =>
    intro x hx
    simp only [List.foldl_cons, List.length_cons]
    rw [ih (u64add x 1) (u64add_lt x 1)]
    simp only [u64add, U64_eq]
    omega

theorem rmLoop_split (bounds : List Nat) : ∀ (ss : List Nat) (acc : Nat × Nat × List Nat),
    ss.foldl (rmLoop bounds) acc =
      (ss.foldl (fun a s => u64add a s) acc.1,
       ss.foldl (fun a _ => u64add a 1) acc.2.1,
       ss.foldl (classifyStep bounds) acc.2.2) := by
  intro ss
  induction ss with
  | nil => intro acc; rfl
  | cons s ss ih =>
    intro acc
    simp only [List.foldl_cons]
    rw [ih]
    rfl

/-! ## Characterisation of `record_many` on one histogram -/

theorem recordMany_bounds (h : Histogram) (ss : List Nat) :
    (h.record_many ss).bounds = h.bounds := rfl

theorem recordMany_count (h : Histogram) (ss : List Nat) :
    (h.record_many ss).count = (h.count + ss.length) % U64 := by
  show u64add h.count (ss.foldl (rmLoop h.bounds) (0, 0, _)).2.1 = _
  rw [rmLoop_split]
  show u64add h.count (ss.foldl (fun a _ => u64add a 1) 0) = _
  rw [foldl_u64add_count ss 0 U64_pos]
  simp only [u64add, U64_eq]
  omega

theorem recordMany_sum (h : Histogram) (ss : List Nat) :
    (h.record_many ss).sum = (h.sum + ss.sum) % U64 := by
  show u64add h.sum (ss.foldl (rmLoop h.bounds) (0, 0, _)).1 = _
  rw [rmLoop_split]
  show u64add h.sum (ss.foldl (fun a s => u64add a s) 0) = _
  rw [foldl_u64add_sum ss 0 U64_pos]
  simp only [u64add, U64_eq]
  omega

theorem recordMany_buckets_length (h : Histogram) (ss : List Nat) :
    (h.record_many ss).buckets.length = h.buckets.length := by
  show (mergeBuckets h.buckets (propagate (ss.foldl (rmLoop h.bounds) (0, 0, _)).2.2)).length = _
  rw [rmLoop_split]
  apply length_mergeBuckets
  rw [length_propagate, length_classFold, List.length_replicate]

theorem recordMany_buckets_getD (h : Histogram) (ss : List Nat) (i : Nat)
    (hlen : h.bounds.length ≤ h.buckets.length) (hi : i < h.buckets.length) :
    (h.record_many ss).buckets.getD i 0 =
      (h.buckets.getD i 0 + cumCnt h.bounds i ss) % U64 := by
  show (mergeBuckets h.buckets (propagate (ss.foldl (rmLoop h.bounds) (0, 0, _)).2.2)).getD i 0 = _
  rw [rmLoop_split]
  have hfl : (ss.foldl (classifyStep h.bounds) (List.replicate h.buckets.length 0)).length =
      h.buckets.length := by
    rw [length_classFold, List.length_replicate]
  have hplen : (propagate (ss.foldl (classifyStep h.bounds)
      (List.replicate h.buckets.length 0))).length = h.buckets.length := by
    rw [length_propagate, hfl]
  rw [getD_mergeBuckets _ _ i (by rw [hplen]) hi]
  rw [getD_propagate i _ (mem_classFold_lt h.bounds ss _
    (by simp only [List.mem_replicate]; rintro c ⟨-, rfl⟩; exact U64_pos))
    (by rw [hfl]; exact hi)]
  rw [classFold_take_sum h.bounds ss _ i (by rw [List.length_replicate]; exact hlen)]
  have hz : ((List.replicate h.buckets.length 0).take (i + 1)).sum = 0 := by
    simp [List.take_replicate]
  rw [hz]
  simp only [u64add, U64_eq]
  omega

/-! ## Characterisation of iterated `record` -/

theorem foldRecord_length (bounds : List Nat) : ∀ (ss bks : List Nat),
    bounds.length = bks.length →
    (ss.foldl (fun b s => recordBuckets s bounds b) bks).length = bks.length := by
  intro ss
  induction ss with
  | nil => intro bks _; rfl
  | cons s ss ih =>
    intro bks hl
    simp only [List.foldl_cons]
    rw [ih _ (by rw [length_recordBuckets bounds bks s hl]; exact hl),
      length_recordBuckets bounds bks s hl]

theorem foldRecord_getD (bounds : List Nat) : ∀ (ss bks : List Nat) (i : Nat),
    bounds.length = bks.length → (∀ c ∈ bks, c < U64) → i < bks.length →
    (ss.foldl (fun b s => recordBuckets s bounds b) bks).getD i 0 =
      (bks.getD i 0 + countLE ss (bounds.getD i 0)) % U64 := by
  intro ss
  induction ss with
  | nil =>
    intro bks i _ hb hi
    have hlt : bks.getD i 0 < U64 := hb _ (getD_mem bks i hi)
    have hz : countLE [] (bounds.getD i 0) = 0 := rfl
    rw [List.foldl_nil, hz, Nat.add_zero, Nat.mod_eq_of_lt hlt]
  | cons s ss ih =>
    intro bks i hl hb hi
    simp only [List.foldl_cons]
    have hl' : bounds.length = (recordBuckets s bounds bks).length := by
      rw [length_recordBuckets bounds bks s hl]; exact hl
    have hb' : ∀ c ∈ recordBuckets s bounds bks, c < U64 :=
      mem_recordBuckets_lt bounds bks s hb
    have hi' : i < (recordBuckets s bounds bks).length := by
      rw [length_recordBuckets bounds bks s hl]; exact hi
    rw [ih _ i hl' hb' hi', getD_recordBuckets bounds bks s i hl hi]
    have hcons : countLE (s :: ss) (bounds.getD i 0) =
        countLE ss (bounds.getD i 0) + if s ≤ bounds.getD i 0 then 1 else 0 := by
      unfold countLE
      rw [List.countP_cons]
      by_cases hsb : s ≤ bounds.getD i 0 <;> simp [hsb]
    rw [hcons]
    by_cases hsb : s ≤ bounds.getD i 0
    · simp only [hsb, if_pos, u64add, U64_eq]
      omega
    · simp only [hsb, if_neg, if_false]
      simp [U64_eq]

theorem recordAll_bounds : ∀ (ss : List Nat) (h : Histogram),
    (ss.foldl Histogram.record h).bounds = h.bounds := by
  intro ss
  induction ss with
  | nil => intro h; rfl
  | cons s ss ih => intro h; simpa [Histogram.record] using ih (h.record s)

theorem recordAll_count : ∀ (ss : List Nat) (h : Histogram), h.count < U64 →
    (ss.foldl Histogram.record h).count = (h.count + ss.length) % U64 := by
  intro ss
  induction ss with
  | nil => intro h hc; simpa using (Nat.mod_eq_of_lt hc).symm
  | cons s ss ih =>
    intro h hc
    simp only [List.foldl_cons, List.length_cons]
    rw [ih (h.record s) (u64add_lt _ _)]
    show (u64add h.count 1 + ss.length) % U64 = _
    simp only [u64add, U64_eq]
    omega

theorem recordAll_sum : ∀ (ss : List Nat) (h : Histogram), h.sum < U64 →
    (ss.foldl Histogram.record h).sum = (h.sum + ss.sum) % U64 := by
  intro ss
  induction ss with
  | nil => intro h hc; simpa using (Nat.mod_eq_of_lt hc).symm
  | cons s ss ih =>
    intro h hc
    simp only [List.foldl_cons, List.sum_cons]
    rw [ih (h.record s) (u64add_lt _ _)]
    show (u64add h.sum s + ss.sum) % U64 = _
    simp only [u64add, U64_eq]
    omega

theorem recordAll_buckets : ∀ (ss : List Nat) (h : Histogram),
    (ss.foldl Histogram.record h).buckets =
      ss.foldl (fun b s => recordBuckets s h.bounds b) h.buckets := by
  intro ss
  induction ss with
  | nil => intro h; rfl
  | cons s ss ih =>
    intro h
    simp only [List.foldl_cons]
    rw [ih (h.record s)]
    rfl

/-! ## Ascending bounds: cumulative first-match counts agree with `≤` counts -/

theorem ascending_getD_le : ∀ (l : List Nat), Ascending l → ∀ a b, a ≤ b →
    b < l.length → l.getD a 0 ≤ l.getD b 0 := by
  intro l
  induction l with
  | nil => intro _ a b _ hb; simp at hb
  | cons c cs ih =>
    intro ha a b hab hb
    have hp := List.pairwise_cons.mp ha
    cases a with
    | zero =>
      cases b with
      | zero => exact Nat.le_refl _
      | succ b =>
        simp only [List.getD_cons_zero, List.getD_cons_succ]
        exact hp.1 _ (getD_mem cs b (by simpa using hb))
    | succ a =>
      cases b with
      | zero => omega
      | succ b =>
        simp only [List.getD_cons_succ]
        exact ih hp.2 a b (by omega) (by simpa using hb)

theorem cumCnt_eq_countLE (bounds ss : List Nat) (i : Nat)
    (ha : Ascending bounds) (hi : i < bounds.length) :
    cumCnt bounds i ss = countLE ss (bounds.getD i 0) := by
  unfold cumCnt countLE
  apply List.countP_congr
  intro s _
  constructor
  · intro hmatch
    cases hm : firstMatch s bounds with
    | none => rw [hm] at hmatch; simp at hmatch
    | some j =>
      rw [hm] at hmatch
      simp only [decide_eq_true_eq] at hmatch ⊢
      obtain ⟨hj, hsj, _⟩ := firstMatch_some s bounds j hm
      exact Nat.le_trans hsj (ascending_getD_le bounds ha j i hmatch hi)
  · intro hle
    simp only [decide_eq_true_eq] at hle
    obtain ⟨j, hm, hji⟩ := firstMatch_le_of_le s bounds i hi hle
    rw [hm]
    simpa using hji

/-- Two histograms with equal fields are equal. -/
theorem Histogram.ext_fields (h1 h2 : Histogram) (hc : h1.count = h2.count)
    (hbo : h1.bounds = h2.bounds) (hbu : h1.buckets = h2.buckets)
    (hs : h1.sum = h2.sum) : h1 = h2 := by
  cases h1
  cases h2
  simp_all

/-- Core equivalence: on a well-formed histogram with ascending bounds,
`record_many` produces exactly the state of one `record` call per sample. -/
theorem recordMany_eq_recordAll (h : Histogram) (ss : List Nat)
    (hwf : h.WF) (ha : Ascending h.bounds) :
    h.record_many ss = ss.foldl Histogram.record h := by
  obtain ⟨hlen, hc, hs, hb⟩ := hwf
  apply Histogram.ext_fields
  · rw [recordMany_count, recordAll_count ss h hc]
  · rw [recordMany_bounds, recordAll_bounds]
  · apply getD_ext
    · rw [recordMany_buckets_length, recordAll_buckets,
        foldRecord_length h.bounds ss h.buckets hlen]
    · intro i hi
      rw [recordMany_buckets_length] at hi
      rw [recordMany_buckets_getD h ss i (Nat.le_of_eq hlen) hi,
        recordAll_buckets, foldRecord_getD h.bounds ss h.buckets i hlen hb hi,
        cumCnt_eq_countLE h.bounds ss i ha (by omega)]
  · rw [recordMany_sum, recordAll_sum ss h hs]

/-! ## The reachable-state characterisation from a fresh histogram -/

theorem getD_map (f : Nat → Nat) : ∀ (l : List Nat) (i : Nat), i < l.length →
    (l.map f).getD i 0 = f (l.getD i 0) := by
  intro l
  induction l with
  | nil => intro i hi; simp at hi
  | cons c cs ih =>
    intro i hi
    cases i with
    | zero => rfl
    | succ i => simpa using ih i (by simpa using hi)

theorem countLE_append (ss ts : List Nat) (b : Nat) :
    countLE (ss ++ ts) b = countLE ss b + countLE ts b := by
  unfold countLE
  exact List.countP_append _ _ _

theorem countLE_le_length (ss : List Nat) (b : Nat) : countLE ss b ≤ ss.length :=
  List.countP_le_length _

theorem mkState_WF (bounds ss : List Nat) : (mkState bounds ss).WF := by
  refine ⟨by simp [mkState], Nat.mod_lt _ U64_pos, Nat.mod_lt _ U64_pos, ?_⟩
  intro c hc
  simp only [mkState, List.mem_map] at hc
  obtain ⟨b, -, rfl⟩ := hc
  exact Nat.mod_lt _ U64_pos

theorem mkState_buckets_length (bounds ss : List Nat) :
    (mkState bounds ss).buckets.length = bounds.length := by
  show (bounds.map (fun b => countLE ss b % U64)).length = _
  rw [List.length_map]

theorem mkState_buckets_getD (bounds ss : List Nat) (i : Nat) (hib : i < bounds.length) :
    (mkState bounds ss).buckets.getD i 0 = countLE ss (bounds.getD i 0) % U64 := by
  show (bounds.map (fun b => countLE ss b % U64)).getD i 0 = _
  exact getD_map _ bounds i hib

theorem record_mkState (bounds ss : List Nat) (s : Nat) :
    (mkState bounds ss).record s = mkState bounds (ss ++ [s]) := by
  apply Histogram.ext_fields
  · show u64add (ss.length % U64) 1 = (ss ++ [s]).length % U64
    simp only [u64add, U64_eq, List.length_append, List.length_singleton]
    omega
  · rfl
  · apply getD_ext
    · show (recordBuckets s bounds ((mkState bounds ss).buckets)).length = _
      rw [length_recordBuckets bounds _ s (mkState_buckets_length bounds ss).symm,
        mkState_buckets_length, mkState_buckets_length]
    · intro i hi
      have hib : i < bounds.length := by
        have hl : ((mkState bounds ss).record s).buckets.length = bounds.length := by
          show (recordBuckets s bounds ((mkState bounds ss).buckets)).length = _
          rw [length_recordBuckets bounds _ s (mkState_buckets_length bounds ss).symm,
            mkState_buckets_length]
        rw [hl] at hi
        exact hi
      show (recordBuckets s bounds ((mkState bounds ss).buckets)).getD i 0 = _
      rw [getD_recordBuckets bounds _ s i (mkState_buckets_length bounds ss).symm
        (by rw [mkState_buckets_length]; exact hib)]
      rw [mkState_buckets_getD bounds ss i hib, mkState_buckets_getD bounds (ss ++ [s]) i hib,
        countLE_append]
      generalize bounds.getD i 0 = β
      by_cases hsb : s ≤ β
      · rw [if_pos hsb]
        have h1 : countLE [s] β = 1 := by unfold countLE; simp [hsb]
        rw [h1]
        simp only [u64add, U64_eq]
        omega
      · rw [if_neg hsb]
        have h0 : countLE [s] β = 0 := by unfold countLE; simp [hsb]
        rw [h0, Nat.add_zero]
  · show u64add (ss.sum % U64) s = (ss ++ [s]).sum % U64
    simp only [u64add, U64_eq, List.sum_append, List.sum_cons, List.sum_nil]
    omega

theorem recordMany_mkState (bounds ss ts : List Nat) (ha : Ascending bounds) :
    (mkState bounds ss).record_many ts = mkState bounds (ss ++ ts) := by
  apply Histogram.ext_fields
  · rw [recordMany_count]
    show (ss.length % U64 + ts.length) % U64 = (ss ++ ts).length % U64
    simp only [U64_eq, List.length_append]
    omega
  · rfl
  · apply getD_ext
    · rw [recordMany_buckets_length, mkState_buckets_length, mkState_buckets_length]
    · intro i hi
      rw [recordMany_buckets_length] at hi
      have hib : i < bounds.length := by rw [mkState_buckets_length] at hi; exact hi
      have hbproj : (mkState bounds ss).bounds = bounds := rfl
      rw [recordMany_buckets_getD _ ts i (by rw [mkState_buckets_length]; exact Nat.le_of_eq rfl)
        hi, hbproj, cumCnt_eq_countLE bounds ts i ha hib,
        mkState_buckets_getD bounds ss i hib, mkState_buckets_getD bounds (ss ++ ts) i hib,
        countLE_append]
      simp only [U64_eq]
      omega
  · rw [recordMany_sum]
    show (ss.sum % U64 + ts.sum) % U64 = (ss ++ ts).sum % U64
    simp only [U64_eq, List.sum_append]
    omega

theorem applyOps_mkState (bounds : List Nat) (ha : Ascending bounds) :
    ∀ (ops : List Op) (ss : List Nat),
    applyOps (mkState bounds ss) ops = mkState bounds (ss ++ allSamples ops) := by
  intro ops
  induction ops with
  | nil => intro ss; simp [applyOps, allSamples]
  | cons op ops ih =>
    intro ss
    show applyOps (applyOp (mkState bounds ss) op) ops = _
    have hstep : applyOp (mkState bounds ss) op = mkState bounds (ss ++ opSamples op) := by
      cases op with
      | single s => exact record_mkState bounds ss s
      | many ts => exact recordMany_mkState bounds ss ts ha
    rw [hstep, ih (ss ++ opSamples op)]
    simp [allSamples, List.append_assoc]

theorem new_eq_mkState (bounds : List Nat) (h : Histogram)
    (hnew : Histogram.new bounds = some h) : h = mkState bounds [] := by
  rw [new_spec] at hnew
  by_cases hb : bounds = []
  · rw [if_pos hb] at hnew
    exact absurd hnew (by simp)
  · rw [if_neg hb] at hnew
    have heq := Option.some.inj hnew
    subst heq
    apply Histogram.ext_fields
    · simp [mkState]
    · rfl
    · show List.replicate bounds.length 0 = bounds.map (fun b => countLE [] b % U64)
      have : (fun b => countLE [] b % U64) = fun _ : Nat => 0 := by
        funext b
        simp [countLE]
      rw [this, List.map_const']
    · simp [mkState]

theorem applyOps_new (bounds : List Nat) (h : Histogram) (ops : List Op)
    (hnew : Histogram.new bounds = some h) (ha : Ascending bounds) :
    applyOps h ops = mkState bounds (allSamples ops) := by
  rw [new_eq_mkState bounds h hnew]
  simpa using applyOps_mkState bounds ha ops []

/-! ## The checked variants agree with the total ones on length-invariant states -/

theorem recordBucketsChecked_eq : ∀ (bounds bks : List Nat) (s : Nat),
    bounds.length = bks.length →
    recordBucketsChecked s bounds bks = some (recordBuckets s bounds bks) := by
  intro bounds
  induction bounds with
  | nil =>
    intro bks s _
    rfl
  | cons b bs ih =>
    intro bks s hl
    cases bks with
    | nil => simp at hl
    | cons c cs =>
      show (recordBucketsChecked s bs cs).map _ = _
      rw [ih cs s (by simpa using hl)]
      rfl

theorem classifyStepChecked_eq (bounds b : List Nat) (s : Nat)
    (hlen : bounds.length ≤ b.length) :
    classifyStepChecked bounds b s = some (classifyStep bounds b s) := by
  unfold classifyStepChecked classifyStep
  cases hm : firstMatch s bounds with
  | none => rfl
  | some j =>
    have hj : j < bounds.length := (firstMatch_some s bounds j hm).1
    show bumpIdxChecked b j = some (bumpIdx b j)
    unfold bumpIdxChecked
    rw [if_pos (by omega)]

theorem foldlM_rmLoopChecked (bounds : List Nat) : ∀ (ss : List Nat)
    (acc : Nat × Nat × List Nat), bounds.length ≤ acc.2.2.length →
    ss.foldlM (rmLoopChecked bounds) acc = some (ss.foldl (rmLoop bounds) acc) := by
  intro ss
  induction ss with
  | nil => intro acc _; rfl
  | cons s ss ih =>
    intro acc hlen
    rw [List.foldlM_cons, List.foldl_cons]
    show (rmLoopChecked bounds acc s).bind _ = _
    unfold rmLoopChecked
    rw [classifyStepChecked_eq bounds acc.2.2 s hlen]
    show (ss.foldlM (rmLoopChecked bounds)
      (u64add acc.1 s, u64add acc.2.1 1, classifyStep bounds acc.2.2 s)) = _
    exact ih _ (by rw [show (u64add acc.1 s, u64add acc.2.1 1,
      classifyStep bounds acc.2.2 s).2.2 = classifyStep bounds acc.2.2 s from rfl,
      length_classifyStep]; exact hlen)

theorem mergeBucketsChecked_eq : ∀ (a b : List Nat), b.length ≤ a.length →
    mergeBucketsChecked a b = some (mergeBuckets a b) := by
  intro a
  induction a with
  | nil =>
    intro b hl
    cases b with
    | nil => rfl
    | cons x xs => simp at hl
  | cons c cs ih =>
    intro b hl
    cases b with
    | nil => rfl
    | cons x xs =>
      show (mergeBucketsChecked cs xs).map _ = _
      rw [ih xs (by simpa using hl)]
      rfl

theorem recordChecked_eq (h : Histogram) (s : Nat)
    (hlen : h.bounds.length = h.buckets.length) :
    h.recordChecked s = some (h.record s) := by
  unfold Histogram.recordChecked
  rw [recordBucketsChecked_eq h.bounds h.buckets s hlen]
  rfl

theorem recordManyChecked_eq (h : Histogram) (ss : List Nat)
    (hlen : h.bounds.length = h.buckets.length) :
    h.recordManyChecked ss = some (h.record_many ss) := by
  unfold Histogram.recordManyChecked
  rw [foldlM_rmLoopChecked h.bounds ss (0, 0, List.replicate h.buckets.length 0)
    (by rw [show ((0, 0, List.replicate h.buckets.length 0) :
      Nat × Nat × List Nat).2.2 = List.replicate h.buckets.length 0 from rfl,
      List.length_replicate]; exact Nat.le_of_eq hlen)]
  have hX : (ss.foldl (rmLoop h.bounds) (0, 0, List.replicate h.buckets.length 0)).2.2.length =
      h.buckets.length := by
    rw [rmLoop_split]
    show (ss.foldl (classifyStep h.bounds) (List.replicate h.buckets.length 0)).length = _
    rw [length_classFold, List.length_replicate]
  show (mergeBucketsChecked h.buckets (propagate _)).bind _ = _
  rw [mergeBucketsChecked_eq h.buckets _ (by rw [length_propagate, hX])]
  rfl

/-! ## Remaining helper facts -/

theorem recordBuckets_id : ∀ (bounds bks : List Nat) (s : Nat),
    (∀ b ∈ bounds, b < s) → recordBuckets s bounds bks = bks := by
  intro bounds
  induction bounds with
  | nil => intro bks s _; rfl
  | cons b bs ih =>
    intro bks s hb
    cases bks with
    | nil => rfl
    | cons c cs =>
      have hlt : b < s := hb b (List.mem_cons_self _ _)
      show (if s ≤ b then u64add c 1 else c) :: recordBuckets s bs cs = c :: cs
      rw [if_neg (by omega), ih cs s (fun x hx => hb x (List.mem_cons_of_mem _ hx))]

theorem countLE_replicate (n a b : Nat) :
    countLE (List.replicate n a) b = if a ≤ b then n else 0 := by
  induction n with
  | zero => simp [countLE]
  | succ n ih =>
    unfold countLE at ih ⊢
    rw [List.replicate_succ, List.countP_cons, ih]
    by_cases hab : a ≤ b
    · simp [hab]
    · simp [hab]

theorem getD_zip : ∀ (a b : List Nat) (i : Nat), i < (a.zip b).length →
    (a.zip b).getD i (0, 0) = (a.getD i 0, b.getD i 0) := by
  intro a
  induction a with
  | nil => intro b i hi; simp at hi
  | cons x xs ih =>
    intro b i hi
    cases b with
    | nil => simp at hi
    | cons y ys =>
      cases i with
      | zero => rfl
      | succ i =>
        show (xs.zip ys).getD i (0, 0) = _
        exact ih ys i (by simpa using hi)

theorem new_lengths (bounds : List Nat) (h : Histogram)
    (hnew : Histogram.new bounds = some h) :
    h.bounds.length = h.buckets.length := by
  rw [new_eq_mkState bounds h hnew, mkState_buckets_length]
  rfl

theorem new_bounds_ne_nil (bounds : List Nat) (h : Histogram)
    (hnew : Histogram.new bounds = some h) : bounds ≠ [] := by
  intro hb
  subst hb
  simp [Histogram.new] at hnew

/-! ## Claim theorems -/

/-- C1: for every (well-formed, i.e. realisable `u64`-state) histogram whose
bounds are in ascending order and every finite sample sequence, `record_many`
leaves the histogram in exactly the same state — total count, total sum and
every bucket count — as calling `record` once per element of the sequence. -/
theorem record_many_matches_iterated_record (h : Histogram) (ss : List Nat)
    (hwf : h.WF) (ha : Ascending h.bounds) :
    h.record_many ss = ss.foldl Histogram.record h :=
  recordMany_eq_recordAll h ss hwf ha

theorem record_many_matches_iterated_record_witness :
    Histogram.record_many
        { count := 0, bounds := [10, 25, 100], buckets := [0, 0, 0], sum := 0 }
        [3, 2, 6, 12, 56, 82, 202, 100, 29] =
      [3, 2, 6, 12, 56, 82, 202, 100, 29].foldl Histogram.record
        { count := 0, bounds := [10, 25, 100], buckets := [0, 0, 0], sum := 0 } :=
  record_many_matches_iterated_record _ _ (by decide) (by decide)

/-- C2 (counterexample): at the reachable-in-type `u64` state with
`count = 2 ^ 64 - 1`, a single `record` call wraps the counter to `0` instead
of increasing it by exactly `1`, refuting the claim as stated. -/
theorem record_increment_overflow_counterexample :
    (Histogram.record { count := U64 - 1, bounds := [5], buckets := [0], sum := 0 } 3).count ≠
      (U64 - 1) + 1 := by
  decide

/-- C2 (amended): a single `record` call updates the total count to
`(count + 1) mod 2 ^ 64`, the total sum to `(sum + sample) mod 2 ^ 64`, bumps
(mod `2 ^ 64`) exactly the buckets whose bound is `≥ sample`, leaves every
other bucket unchanged, and preserves the bucket-vector length; the updates
are exact increments whenever no counter overflows. -/
theorem record_single_step_effect (h : Histogram) (s : Nat)
    (hlen : h.bounds.length = h.buckets.length) :
    (h.record s).count = (h.count + 1) % U64 ∧
    (h.record s).sum = (h.sum + s) % U64 ∧
    (h.record s).buckets.length = h.buckets.length ∧
    ∀ i, i < h.buckets.length →
      (h.record s).buckets.getD i 0 =
        if s ≤ h.bounds.getD i 0 then (h.buckets.getD i 0 + 1) % U64
        else h.buckets.getD i 0 := by
  refine ⟨rfl, rfl, length_recordBuckets h.bounds h.buckets s hlen, ?_⟩
  intro i hi
  exact getD_recordBuckets h.bounds h.buckets s i hlen hi

theorem record_single_step_effect_witness :
    (Histogram.record { count := 5, bounds := [10, 25], buckets := [1, 2], sum := 40 } 12).count =
      (5 + 1) % U64 :=
  (record_single_step_effect
    { count := 5, bounds := [10, 25], buckets := [1, 2], sum := 40 } 12 (by decide)).1

/-- C3: construction fails (returns `none`) exactly when the bound list is
empty; on any non-empty list it succeeds with the bounds stored exactly as
given (same values, same order) and bucket counts, total count and total sum
all zero. -/
theorem new_none_iff_empty_else_zeroed (bounds : List Nat) :
    Histogram.new bounds =
      if bounds = [] then none
      else some { count := 0, bounds := bounds,
                  buckets := List.replicate bounds.length 0, sum := 0 } :=
  new_spec bounds

/-- C4: from a freshly constructed histogram with ascending bounds, recording
a batch and recording any permutation of it (by `record_many` or per-sample
`record`) yield identical sum, count and buckets. -/
theorem record_many_permutation_invariant (bounds : List Nat) (h : Histogram)
    (ss ts : List Nat) (hnew : Histogram.new bounds = some h) (ha : Ascending bounds)
    (hperm : ss.Perm ts) :
    (h.record_many ss).sum = (h.record_many ts).sum ∧
    (h.record_many ss).count = (h.record_many ts).count ∧
    (h.record_many ss).buckets = (h.record_many ts).buckets ∧
    h.record_many ss = ts.foldl Histogram.record h := by
  have hmk := new_eq_mkState bounds h hnew
  subst hmk
  have h1 : (mkState bounds []).record_many ss = mkState bounds ss := by
    simpa using recordMany_mkState bounds [] ss ha
  have h2 : (mkState bounds []).record_many ts = mkState bounds ts := by
    simpa using recordMany_mkState bounds [] ts ha
  have hstate : mkState bounds ss = mkState bounds ts := by
    unfold mkState
    rw [hperm.length_eq, hperm.sum_eq]
    have hfun : (fun b => countLE ss b % U64) = (fun b => countLE ts b % U64) := by
      funext b
      unfold countLE
      rw [hperm.countP_eq]
    rw [hfun]
  have hiter : (mkState bounds []).record_many ts = ts.foldl Histogram.record (mkState bounds []) :=
    recordMany_eq_recordAll _ ts (mkState_WF bounds []) ha
  have hmain : (mkState bounds []).record_many ss = (mkState bounds []).record_many ts := by
    rw [h1, h2, hstate]
  exact ⟨congrArg Histogram.sum hmain, congrArg Histogram.count hmain,
    congrArg Histogram.buckets hmain, hmain.trans hiter⟩

theorem record_many_permutation_invariant_witness :
    Histogram.record_many
        { count := 0, bounds := [10, 25, 100], buckets := [0, 0, 0], sum := 0 } [3, 100, 2] =
      [100, 2, 3].foldl Histogram.record
        { count := 0, bounds := [10, 25, 100], buckets := [0, 0, 0], sum := 0 } :=
  (record_many_permutation_invariant [10, 25, 100] _ [3, 100, 2] [100, 2, 3]
    (by decide) (by decide) (by decide)).2.2.2

/-- C5 (counterexample): after `2 ^ 64` samples the second bucket counter
wraps to `0` while the first sits at `2 ^ 64 - 1`, so the adjacent-bucket
monotonicity claimed for every operation sequence on ascending bounds fails
at this concrete (astronomically long, but well-defined) operation list. -/
theorem bucket_monotonicity_overflow_counterexample :
    Histogram.new [0, 1] =
        some { count := 0, bounds := [0, 1], buckets := [0, 0], sum := 0 } ∧
    Ascending [0, 1] ∧
    ¬ ((applyOps { count := 0, bounds := [0, 1], buckets := [0, 0], sum := 0 }
          [Op.many (List.replicate (U64 - 1) 0 ++ [1])]).buckets.getD 0 0 ≤
        (applyOps { count := 0, bounds := [0, 1], buckets := [0, 0], sum := 0 }
          [Op.many (List.replicate (U64 - 1) 0 ++ [1])]).buckets.getD 1 0) := by
  refine ⟨by decide, by decide, ?_⟩
  have happ := applyOps_new [0, 1]
    { count := 0, bounds := [0, 1], buckets := [0, 0], sum := 0 }
    [Op.many (List.replicate (U64 - 1) 0 ++ [1])] (by decide) (by decide)
  rw [happ]
  have hss : allSamples [Op.many (List.replicate (U64 - 1) 0 ++ [1])] =
      List.replicate (U64 - 1) 0 ++ [1] := by
    simp [allSamples, opSamples]
  rw [hss]
  rw [mkState_buckets_getD [0, 1] _ 0 (by decide), mkState_buckets_getD [0, 1] _ 1 (by decide)]
  have hc0 : countLE (List.replicate (U64 - 1) 0 ++ [1]) ([0, 1].getD 0 0) = U64 - 1 := by
    rw [countLE_append, countLE_replicate]
    have h1 : countLE [1] ([0, 1].getD 0 0) = 0 := by decide
    rw [h1]
    simp
  have hc1 : countLE (List.replicate (U64 - 1) 0 ++ [1]) ([0, 1].getD 1 0) = U64 := by
    rw [countLE_append, countLE_replicate]
    have h1 : countLE [1] ([0, 1].getD 1 0) = 1 := by decide
    rw [h1]
    have : (0 : Nat) ≤ [0, 1].getD 1 0 := by decide
    rw [if_pos this]
    have := U64_pos
    omega
  rw [hc0, hc1, Nat.mod_self, Nat.mod_eq_of_lt (by have := U64_pos; omega)]
  have := U64_eq
  omega

/-- C5 (amended): from a freshly constructed histogram with ascending bounds,
after any sequence of `record` and `record_many` operations recording fewer
than `2 ^ 64` samples in total (so no bucket counter can overflow), the bucket
counts are monotonically non-decreasing across adjacent indices. -/
theorem buckets_monotone_after_ops (bounds : List Nat) (h : Histogram) (ops : List Op)
    (hnew : Histogram.new bounds = some h) (ha : Ascending bounds)
    (hsmall : (allSamples ops).length < U64) :
    ∀ i, i + 1 < (applyOps h ops).buckets.length →
      (applyOps h ops).buckets.getD i 0 ≤ (applyOps h ops).buckets.getD (i + 1) 0 := by
  rw [applyOps_new bounds h ops hnew ha]
  intro i hi1
  rw [mkState_buckets_length] at hi1
  rw [mkState_buckets_getD bounds _ i (by omega),
    mkState_buckets_getD bounds _ (i + 1) (by omega)]
  have hlt0 : countLE (allSamples ops) (bounds.getD i 0) < U64 :=
    Nat.lt_of_le_of_lt (countLE_le_length _ _) hsmall
  have hlt1 : countLE (allSamples ops) (bounds.getD (i + 1) 0) < U64 :=
    Nat.lt_of_le_of_lt (countLE_le_length _ _) hsmall
  rw [Nat.mod_eq_of_lt hlt0, Nat.mod_eq_of_lt hlt1]
  have hbb : bounds.getD i 0 ≤ bounds.getD (i + 1) 0 :=
    ascending_getD_le bounds ha i (i + 1) (by omega) (by omega)
  unfold countLE
  apply List.countP_mono_left
  intro x _ hx
  simp only [decide_eq_true_eq] at hx ⊢
  omega

theorem buckets_monotone_after_ops_witness :
    (applyOps { count := 0, bounds := [10, 25, 100], buckets := [0, 0, 0], sum := 0 }
      [Op.many [3, 2, 6, 12], Op.single 56]).buckets.getD 0 0 ≤
    (applyOps { count := 0, bounds := [10, 25, 100], buckets := [0, 0, 0], sum := 0 }
      [Op.many [3, 2, 6, 12], Op.single 56]).buckets.getD 1 0 :=
  buckets_monotone_after_ops [10, 25, 100] _ [Op.many [3, 2, 6, 12], Op.single 56]
    (by decide) (by decide) (by decide) 0 (by decide)

/-- C6 (counterexample): at the `u64` state with `count = 2 ^ 64 - 1`,
recording the sample `7`, which exceeds the only bound `5`, wraps the total
count to `0` instead of incrementing it, refuting the claim as stated. -/
theorem count_increment_overflow_counterexample :
    (∀ b ∈ ({ count := U64 - 1, bounds := [5], buckets := [0], sum := 0 } : Histogram).bounds,
      b < 7) ∧
    (Histogram.record { count := U64 - 1, bounds := [5], buckets := [0], sum := 0 } 7).count ≠
      (U64 - 1) + 1 := by
  decide

/-- C6 (amended): recording a sample strictly greater than every bound
updates the total count and total sum modulo `2 ^ 64` (exact increments
whenever they do not overflow) and leaves every bucket count unchanged; and
from a fresh histogram with ascending bounds, whenever every sample ever
recorded is at most the final (largest) bound, the total count equals the
count of the last bucket. -/
theorem overflow_sample_and_last_bucket :
    (∀ (h : Histogram) (s : Nat), (∀ b ∈ h.bounds, b < s) →
      (h.record s).count = (h.count + 1) % U64 ∧
      (h.record s).sum = (h.sum + s) % U64 ∧
      (h.record s).buckets = h.buckets) ∧
    (∀ (bounds : List Nat) (h : Histogram) (ops : List Op),
      Histogram.new bounds = some h → Ascending bounds →
      (∀ x ∈ allSamples ops, x ≤ bounds.getD (bounds.length - 1) 0) →
      (applyOps h ops).count =
        (applyOps h ops).buckets.getD ((applyOps h ops).buckets.length - 1) 0) := by
  constructor
  · intro h s hb
    exact ⟨rfl, rfl, recordBuckets_id h.bounds h.buckets s hb⟩
  · intro bounds h ops hnew ha hle
    have hne := new_bounds_ne_nil bounds h hnew
    have hpos : 0 < bounds.length := List.length_pos.mpr hne
    rw [applyOps_new bounds h ops hnew ha, mkState_buckets_length,
      mkState_buckets_getD bounds _ (bounds.length - 1) (by omega)]
    show (allSamples ops).length % U64 =
      countLE (allSamples ops) (bounds.getD (bounds.length - 1) 0) % U64
    have hall : countLE (allSamples ops) (bounds.getD (bounds.length - 1) 0) =
        (allSamples ops).length := by
      unfold countLE
      rw [List.countP_eq_length]
      intro x hx
      simpa using hle x hx
    rw [hall]

theorem overflow_sample_and_last_bucket_witness :
    (Histogram.record { count := 2, bounds := [10, 25], buckets := [1, 2], sum := 30 } 99).buckets
      = [1, 2] ∧
    (applyOps { count := 0, bounds := [10, 25], buckets := [0, 0], sum := 0 }
        [Op.single 7, Op.many [3, 25]]).count =
      (applyOps { count := 0, bounds := [10, 25], buckets := [0, 0], sum := 0 }
        [Op.single 7, Op.many [3, 25]]).buckets.getD
        ((applyOps { count := 0, bounds := [10, 25], buckets := [0, 0], sum := 0 }
          [Op.single 7, Op.many [3, 25]]).buckets.length - 1) 0 :=
  ⟨(overflow_sample_and_last_bucket.1 _ 99 (by decide)).2.2,
   overflow_sample_and_last_bucket.2 [10, 25] _ [Op.single 7, Op.many [3, 25]]
     (by decide) (by decide) (by decide)⟩

/-- C7: the read accessors pass the state through unchanged (no mutation),
repeated calls with no recording in between return identical results, and
the bucket snapshot is a freshly built list of (bound, count) pairs in
construction order, one pair per configured bound. -/
theorem accessors_pure (h : Histogram) :
    h.sumCall.2 = h ∧ h.countCall.2 = h ∧ h.bucketsCall.2 = h ∧
    h.sumCall.2.sumCall.1 = h.sumCall.1 ∧
    h.countCall.2.countCall.1 = h.countCall.1 ∧
    h.bucketsCall.2.bucketsCall.1 = h.bucketsCall.1 ∧
    h.bucketsCall.1 = h.bounds.zip h.buckets ∧
    (h.bounds.length = h.buckets.length → h.bucketsCall.1.length = h.bounds.length) ∧
    ∀ i, i < h.bucketsCall.1.length →
      h.bucketsCall.1.getD i (0, 0) = (h.bounds.getD i 0, h.buckets.getD i 0) := by
  refine ⟨rfl, rfl, rfl, rfl, rfl, rfl, rfl, ?_, ?_⟩
  · intro hlen
    show (h.bounds.zip h.buckets).length = _
    rw [List.length_zip, hlen, Nat.min_self]
  · intro i hi
    exact getD_zip h.bounds h.buckets i hi

theorem accessors_pure_witness :
    ({ count := 3, bounds := [10, 25], buckets := [1, 2],
        sum := 30 } : Histogram).bucketsCall.1.length = 2 ∧
    ({ count := 3, bounds := [10, 25], buckets := [1, 2],
        sum := 30 } : Histogram).bucketsCall.1.getD 0 (0, 0) = (10, 1) :=
  ⟨(accessors_pure _).2.2.2.2.2.2.2.1 (by decide),
   (accessors_pure
      { count := 3, bounds := [10, 25], buckets := [1, 2], sum := 30 }).2.2.2.2.2.2.2.2
     0 (by decide)⟩

/-- C8: on the non-ascending bound list `[10, 5]`, recording the single
sample `7` by `record_many` (first-match classification plus forward
cumulative propagation) yields a different final state than recording it
with `record` (which tests every bound independently). -/
theorem record_many_diverges_on_nonascending_bounds :
    ¬ Ascending [10, 5] ∧
    Histogram.record_many { count := 0, bounds := [10, 5], buckets := [0, 0], sum := 0 } [7] ≠
      [7].foldl Histogram.record { count := 0, bounds := [10, 5], buckets := [0, 0], sum := 0 } := by
  decide

/-- C9: the constructor establishes that the bounds and buckets vectors have
equal length, `record` and `record_many` preserve that equality, and under it
the panic-aware variants of both operations never hit the out-of-bounds panic
branch: they return exactly the results of the total operations. -/
theorem indexing_panic_free :
    (∀ (bounds : List Nat) (h : Histogram), Histogram.new bounds = some h →
      h.bounds.length = h.buckets.length) ∧
    (∀ (h : Histogram) (s : Nat), h.bounds.length = h.buckets.length →
      (h.record s).bounds.length = (h.record s).buckets.length ∧
      h.recordChecked s = some (h.record s)) ∧
    (∀ (h : Histogram) (ss : List Nat), h.bounds.length = h.buckets.length →
      (h.record_many ss).bounds.length = (h.record_many ss).buckets.length ∧
      h.recordManyChecked ss = some (h.record_many ss)) := by
  refine ⟨fun bounds h hnew => new_lengths bounds h hnew, ?_, ?_⟩
  · intro h s hlen
    refine ⟨?_, recordChecked_eq h s hlen⟩
    show h.bounds.length = (recordBuckets s h.bounds h.buckets).length
    rw [length_recordBuckets h.bounds h.buckets s hlen]
    exact hlen
  · intro h ss hlen
    refine ⟨?_, recordManyChecked_eq h ss hlen⟩
    rw [recordMany_bounds, recordMany_buckets_length]
    exact hlen

theorem indexing_panic_free_witness :
    Histogram.recordChecked
        { count := 0, bounds := [10, 25, 100], buckets := [0, 0, 0], sum := 0 } 89 =
      some (Histogram.record
        { count := 0, bounds := [10, 25, 100], buckets := [0, 0, 0], sum := 0 } 89) ∧
    Histogram.recordManyChecked
        { count := 0, bounds := [10, 25, 100], buckets := [0, 0, 0], sum := 0 } [3, 2, 202] =
      some (Histogram.record_many
        { count := 0, bounds := [10, 25, 100], buckets := [0, 0, 0], sum := 0 } [3, 2, 202]) :=
  ⟨(indexing_panic_free.2.1 _ 89 (by decide)).2,
   (indexing_panic_free.2.2 _ [3, 2, 202] (by decide)).2⟩

/-- C10: every counter update performed by `record` and `record_many` is
unchecked `u64` addition, i.e. arithmetic modulo `2 ^ 64`: count and sum
always land on the wrapped value, qualifying buckets are bumped modulo
`2 ^ 64`, and at the boundary the sum wraps to `0` rather than saturating. -/
theorem counters_wrap_mod_u64 :
    (∀ (h : Histogram) (s : Nat),
      (h.record s).count = (h.count + 1) % U64 ∧ (h.record s).sum = (h.sum + s) % U64) ∧
    (∀ (h : Histogram) (ss : List Nat),
      (h.record_many ss).count = (h.count + ss.length) % U64 ∧
      (h.record_many ss).sum = (h.sum + ss.sum) % U64) ∧
    (∀ (h : Histogram) (s i : Nat), h.bounds.length = h.buckets.length →
      i < h.buckets.length → s ≤ h.bounds.getD i 0 →
      (h.record s).buckets.getD i 0 = (h.buckets.getD i 0 + 1) % U64) ∧
    (Histogram.record { count := 0, bounds := [0], buckets := [0], sum := U64 - 1 } 1).sum = 0 := by
  refine ⟨fun h s => ⟨rfl, rfl⟩,
    fun h ss => ⟨recordMany_count h ss, recordMany_sum h ss⟩, ?_, by decide⟩
  intro h s i hlen hi hs
  show (recordBuckets s h.bounds h.buckets).getD i 0 = _
  rw [getD_recordBuckets h.bounds h.buckets s i hlen hi, if_pos hs]
  rfl

theorem counters_wrap_mod_u64_witness :
    (Histogram.record { count := 0, bounds := [7], buckets := [0], sum := 0 } 4).buckets.getD 0 0 =
      (0 + 1) % U64 :=
  counters_wrap_mod_u64.2.2.1 _ 4 0 (by decide) (by decide) (by decide)
